import Mathlib

/-!
# Miyoo game-list frontend (`src/miyoo.cpp`)

A shallow embedding of `Miyoo::skipExisting`, `Miyoo::preserveFromOld` and
`Miyoo::assembleList`, and the properties of the reconciliation and list-assembly
steps that the specification states about them.

Modelling conventions

* A `QString` is a list of characters; the `QString` member functions the source
  calls (`count`, `contains`, `replace`, `simplified`) are defined below after the
  Qt documentation, by structural recursion, so that they evaluate on literals.
* A `QFileInfo` is the record of the answers the source asks of it (`isFile`,
  `isDir`, `fileName`, `absolutePath`, `absoluteFilePath`).  The state of the disk
  is the function `World.fileInfo` that gives the `QFileInfo` of a path, together
  with `World.dirCount`, the value of `QDir(path, nameFilter).count()`.
* `Platform::getFormats` and `StrTools::xmlEscape` are not part of `miyoo.cpp`;
  they are fields of `World`, so a theorem stated for every `World` holds whatever
  they compute.  The scenarios are evaluated on the world of a concrete disk.
* Console output (`printf` of the progress dots) is not modelled: it does not
  flow into the queue, the entry list or the XML text.
-/

namespace Miyoo

/-! ## Strings -/

/-- A Qt string, as its sequence of characters. -/
abbrev QString := List Char

/-- The value of `s.count(sub)`: the number of (possibly overlapping) positions of
`s` at which `sub` occurs. -/
def QString.count : QString → QString → Nat
  | [], sub => if sub.isEmpty then 1 else 0
  | c :: cs, sub => (if sub.isPrefixOf (c :: cs) then 1 else 0) + QString.count cs sub

/-- The value of `s.contains(sub)`: `sub` occurs somewhere in `s`. -/
def QString.contains : QString → QString → Bool
  | [], sub => sub.isEmpty
  | c :: cs, sub => sub.isPrefixOf (c :: cs) || QString.contains cs sub

/-- Worker of `QString.replace`.  The counter is the number of characters of the
occurrence found last that are still to be skipped. -/
def QString.replaceGo (before after : QString) : Nat → QString → QString
  | _, [] => if before.isEmpty then after else []
  | skip + 1, _ :: cs => QString.replaceGo before after skip cs
  | 0, c :: cs =>
    if before.isPrefixOf (c :: cs) then
      if before.isEmpty then after ++ c :: QString.replaceGo before after 0 cs
      else after ++ QString.replaceGo before after (before.length - 1) cs
    else c :: QString.replaceGo before after 0 cs

/-- The value of `s.replace(before, after)`: every occurrence of `before` in `s`,
found scanning from the left and never overlapping the one before it, is replaced
by `after` (an empty `before` occurs before every character and at the end). -/
def QString.replace (s before after : QString) : QString :=
  QString.replaceGo before after 0 s

/-- The characters for which `QChar::isSpace` holds. -/
def qIsSpace (c : Char) : Bool :=
  let n := c.toNat
  n == 0x20 || (0x09 ≤ n && n ≤ 0x0d) || n == 0x85 || n == 0xa0 || n == 0x1680 ||
  (0x2000 ≤ n && n ≤ 0x200a) || n == 0x2028 || n == 0x2029 || n == 0x202f ||
  n == 0x205f || n == 0x3000

/-- Worker of `QString.simplified`: `started` says that a word has been emitted,
`pending` that whitespace has been seen since. -/
def QString.simplifiedGo : Bool → Bool → QString → QString
  | _, _, [] => []
  | started, pending, c :: cs =>
    if qIsSpace c then QString.simplifiedGo started started cs
    else if pending then ' ' :: c :: QString.simplifiedGo true false cs
    else c :: QString.simplifiedGo true false cs

/-- The value of `s.simplified()`: whitespace removed from both ends and every
internal run of whitespace replaced by one space. -/
def QString.simplified (s : QString) : QString :=
  QString.simplifiedGo false false s

/-! ## Data model -/

/-- The fields of `GameEntry` that `miyoo.cpp` reads or writes. -/
structure GameEntry where
  path : QString
  title : QString
  screenshotFile : QString
  eSFavorite : QString
deriving DecidableEq, Repr

/-- What a path is on disk: a regular file, a directory, or neither (absent, or a
special file). -/
inductive FileKind where
  | file
  | dir
  | other
deriving DecidableEq, Repr

/-- The answers of a `QFileInfo` object. -/
structure QFileInfo where
  kind : FileKind
  fileName : QString
  absolutePath : QString
  absoluteFilePath : QString
deriving DecidableEq, Repr

/-- The value of `info.isFile()`. -/
def QFileInfo.isFile (info : QFileInfo) : Bool := info.kind == FileKind.file

/-- The value of `info.isDir()`. -/
def QFileInfo.isDir (info : QFileInfo) : Bool := info.kind == FileKind.dir

/-- The discovery queue: `Queue` is a `QList<QFileInfo>`. -/
abbrev Queue := List QFileInfo

/-- The settings `miyoo.cpp` reads from `config`. -/
structure Settings where
  platform : QString
  inputFolder : QString
  extensions : QString
  addExtensions : QString
  relativePaths : Bool
deriving DecidableEq, Repr

/-- Everything outside `miyoo.cpp` that its functions consult. -/
structure World where
  /-- The object `QFileInfo(path)`. -/
  fileInfo : QString → QFileInfo
  /-- The value of `QDir(path, nameFilter).count()`. -/
  dirCount : QString → QString → Nat
  /-- The value of `Platform::get().getFormats(platform, extensions, addExtensions)`. -/
  getFormats : QString → QString → QString → QString
  /-- The value of `StrTools::xmlEscape(str)`. -/
  xmlEscape : QString → QString

/-! ## `Miyoo::skipExisting` -/

/-- The test of the inner loop of `skipExisting`: the old entry `current` claims the
candidate `cand`. -/
def matchesCandidate (current cand : QFileInfo) : Bool :=
  if current.isFile then current.fileName == cand.fileName
  else if current.isDir then current.absoluteFilePath == cand.absolutePath
  else false

/-- The inner loop of `skipExisting` (`for b`): the first candidate the old entry
claims is removed, and the scan stops there. -/
def scanQueue (current : QFileInfo) : Queue → Queue
  | [] => []
  | cand :: rest =>
    if current.isFile then
      if current.fileName == cand.fileName then rest
      else cand :: scanQueue current rest
    else if current.isDir then
      if current.absoluteFilePath == cand.absolutePath then rest
      else cand :: scanQueue current rest
    else cand :: scanQueue current rest

/-- The outer loop of `skipExisting` (`for a`). -/
def resolveLoop (w : World) : List GameEntry → Queue → Queue
  | [], queue => queue
  | entry :: entries, queue =>
    resolveLoop w entries (scanQueue (w.fileInfo entry.path) queue)

/-- What `skipExisting` leaves behind: its return value, the `gameEntries` argument
and the queue. -/
structure SkipResult where
  ret : Bool
  gameEntries : List GameEntry
  queue : Queue
deriving DecidableEq, Repr

/-- The function `Miyoo::skipExisting`; `oldEntries` is the member of that name, and
`_gameEntries` the content of the reference argument on entry, which the first
statement overwrites. -/
def skipExisting (w : World) (oldEntries : List GameEntry)
    (_gameEntries : List GameEntry) (queue : Queue) : SkipResult :=
  let gameEntries := oldEntries
  { ret := true, gameEntries := gameEntries, queue := resolveLoop w gameEntries queue }

/-- The queue `skipExisting` leaves: `reconcile(O, Q)` of the specification. -/
def reconcile (w : World) (oldEntries : List GameEntry) (queue : Queue) : Queue :=
  (skipExisting w oldEntries [] queue).queue

/-! ## `Miyoo::preserveFromOld` and `Miyoo::assembleList` -/

/-- The function `Miyoo::preserveFromOld`: it returns at once when the favourite
flag is empty, and has nothing left to do when it is not. -/
def preserveFromOld (entry : GameEntry) : GameEntry :=
  if entry.eSFavorite.isEmpty then entry else entry

/-- The name filter `assembleList` hands to `QDir`: the formats of the platform,
with `*.bin` taken out when `*.cue` is there too. -/
def countingFilter (w : World) (config : Settings) : QString :=
  let extensions := w.getFormats config.platform config.extensions config.addExtensions
  if QString.contains extensions "*.cue".toList && QString.contains extensions "*.bin".toList then
    QString.simplified (QString.replace extensions "*.bin".toList "".toList)
  else extensions

/-- Lines 107 to 133 of `assembleList`: the element name chosen for the entry, and
the entry with its path rewritten when it is promoted to a folder. -/
def classifyEntry (w : World) (config : Settings) (entry : GameEntry) : QString × GameEntry :=
  let entryType := "game".toList
  let entryInfo := w.fileInfo entry.path
  if entryInfo.isFile && config.platform != "daphne".toList then
    let entryAbsolutePath := entryInfo.absolutePath
    if QString.count entryAbsolutePath "/".toList
        == QString.count config.inputFolder "/".toList + 1 then
      let extensions := countingFilter w config
      if w.dirCount entryAbsolutePath extensions == 1 then
        ("folder".toList, { entry with path := entryAbsolutePath })
      else (entryType, entry)
    else (entryType, entry)
  else if entryInfo.isDir then ("folder".toList, entry)
  else (entryType, entry)

/-- Lines 138 to 141 of `assembleList`: the rewrite of the path on the platform
`daphne`, which also sets the element name back to `game`. -/
def daphneOverride (config : Settings) (typed : QString × GameEntry) : QString × GameEntry :=
  if config.platform == "daphne".toList then
    ("game".toList,
      { typed.2 with
        path := QString.replace
          (QString.replace typed.2.path "daphne/roms/".toList "daphne/".toList)
          ".zip".toList ".daphne".toList })
  else typed

/-- Lines 143 to 145 of `assembleList`: the substitution of relative-path mode. -/
def relativize (config : Settings) (entry : GameEntry) : GameEntry :=
  if config.relativePaths then
    { entry with path := QString.replace entry.path config.inputFolder ".".toList }
  else entry

/-- Lines 107 to 145 of `assembleList`: the element name and the entry as they stand
when the element is written. -/
def finalizeEntry (w : World) (config : Settings) (entry : GameEntry) : QString × GameEntry :=
  let classified := classifyEntry w config entry
  let preserved := (classified.1, preserveFromOld classified.2)
  let overridden := daphneOverride config preserved
  (overridden.1, relativize config overridden.2)

/-- Lines 150 to 154 of `assembleList`: the text appended for the screenshot, the
self-closing element when the entry has none and the element around the escaped
screenshot path otherwise. -/
def imageLine (w : World) (config : Settings) (entry : GameEntry) : QString :=
  if entry.screenshotFile.isEmpty then "    <image />\n".toList
  else
    "    <image>".toList
      ++ (if config.relativePaths then
            QString.replace (w.xmlEscape entry.screenshotFile) config.inputFolder ".".toList
          else w.xmlEscape entry.screenshotFile)
      ++ "</image>\n".toList

/-- Lines 147 to 155 of `assembleList`: the five `append`s that write one element. -/
def emitEntry (w : World) (config : Settings) (finalOutput entryType : QString)
    (entry : GameEntry) : QString :=
  let finalOutput := finalOutput ++ ("  <".toList ++ entryType ++ ">\n".toList)
  let finalOutput :=
    finalOutput ++ ("    <path>".toList ++ w.xmlEscape entry.path ++ "</path>\n".toList)
  let finalOutput :=
    finalOutput ++ ("    <name>".toList ++ w.xmlEscape entry.title ++ "</name>\n".toList)
  let finalOutput := finalOutput ++ imageLine w config entry
  finalOutput ++ ("  </".toList ++ entryType ++ ">\n".toList)

/-- The loop of `assembleList` over the entries, which are updated in place. -/
def assembleLoop (w : World) (config : Settings) :
    QString → List GameEntry → QString × List GameEntry
  | finalOutput, [] => (finalOutput, [])
  | finalOutput, entry :: entries =>
    let typed := finalizeEntry w config entry
    let rest := assembleLoop w config (emitEntry w config finalOutput typed.1 typed.2) entries
    (rest.1, typed.2 :: rest.2)

/-- The function `Miyoo::assembleList`: the text of `finalOutput` and the content of
`gameEntries` when it returns. -/
def assembleList (w : World) (config : Settings) (finalOutput : QString)
    (gameEntries : List GameEntry) : QString × List GameEntry :=
  let finalOutput := finalOutput ++ "<?xml version=\"1.0\"?>\n<gameList>\n".toList
  let done := assembleLoop w config finalOutput gameEntries
  (done.1 ++ "</gameList>".toList, done.2)

/-! ## A concrete disk

The scenarios are evaluated on a disk given by the lists of its files and of its
directories, all as absolute paths without a trailing `/`. -/

/-- The part of a path after its last `/`. -/
def baseName (path : QString) : QString :=
  (path.reverse.takeWhile (fun c => c != '/')).reverse

/-- The part of a path before its last `/`, and `/` for an entry of the root. -/
def dirName (path : QString) : QString :=
  let parent := ((path.reverse.dropWhile (fun c => c != '/')).drop 1).reverse
  if parent.isEmpty then "/".toList else parent

/-- Wildcard matching of a `QDir` name filter against a file name, without regard to
case: `*` stands for any run of characters and `?` for any one character.  Sets of
characters in brackets are not modelled, and the theorems that rest on the matching
take patterns without `[`. -/
def wildcardMatch : QString → QString → Bool
  | [], name => name.isEmpty
  | p :: ps, name =>
    if p = '*' then name.tails.any (fun t => wildcardMatch ps t)
    else
      match name with
      | [] => false
      | n :: ns => (p = '?' || p.toLower == n.toLower) && wildcardMatch ps ns

/-- The pieces of a string between the occurrences of a separator. -/
def splitAtChar (sep : Char) : QString → List QString
  | [] => [[]]
  | c :: cs =>
    match splitAtChar sep cs with
    | [] => [[c]]
    | piece :: pieces => if c = sep then [] :: piece :: pieces else (c :: piece) :: pieces

/-- The patterns of a name filter: the filter is cut at `;` when it has one and at
spaces otherwise, and a filter without a pattern stands for `*`. -/
def nameFilters (nameFilter : QString) : List QString :=
  let sep := if nameFilter.any (fun c => c == ';') then ';' else ' '
  let pieces := (splitAtChar sep nameFilter).map QString.simplified
  if pieces.all (fun piece => piece.isEmpty) then ["*".toList] else pieces

/-- The disk: the absolute paths of its regular files and of its directories. -/
structure Disk where
  files : List QString
  dirs : List QString
deriving DecidableEq, Repr

/-- What a path is on the disk. -/
def Disk.kindOf (disk : Disk) (path : QString) : FileKind :=
  if disk.files.contains path then FileKind.file
  else if disk.dirs.contains path then FileKind.dir
  else FileKind.other

/-- The `QFileInfo` of an absolute path on the disk. -/
def Disk.fileInfo (disk : Disk) (path : QString) : QFileInfo :=
  { kind := disk.kindOf path, fileName := baseName path, absolutePath := dirName path,
    absoluteFilePath := path }

/-- The names `QDir(dir).entryList()` lists: nothing when `dir` is not a directory
of the disk, and otherwise `.`, `..` and the entries of `dir` that are not hidden
(whose name does not begin with `.`). -/
def Disk.entryList (disk : Disk) (dir : QString) : List QString :=
  if disk.dirs.contains dir then
    ".".toList :: "..".toList ::
      (((disk.dirs ++ disk.files).filter (fun path => dirName path == dir)).map baseName).filter
        (fun name => !".".toList.isPrefixOf name)
  else []

/-- The number of the names a directory lists that pass a name filter: a name passes
when one of the patterns of the filter matches it. -/
def countMatching (names : List QString) (nameFilter : QString) : Nat :=
  (names.filter
    (fun name => (nameFilters nameFilter).any (fun pattern => wildcardMatch pattern name))).length

/-- The value of `QDir(dir, nameFilter).count()` on the disk. -/
def Disk.dirCount (disk : Disk) (dir nameFilter : QString) : Nat :=
  countMatching (disk.entryList dir) nameFilter

/-- Modelled from the spec: the text of one character under `StrTools::xmlEscape`,
whose source (`strtools.cpp`) is not part of `miyoo.cpp`; each of the five
XML-reserved characters `& < > " '` gives its entity. -/
def xmlEscapeChar (c : Char) : QString :=
  if c = '&' then "&amp;".toList
  else if c = '<' then "&lt;".toList
  else if c = '>' then "&gt;".toList
  else if c = Char.ofNat 34 then "&quot;".toList
  else if c = Char.ofNat 39 then "&apos;".toList
  else [c]

/-- Modelled from the spec: `StrTools::xmlEscape`, whose source (`strtools.cpp`) is
not part of `miyoo.cpp`; the text with the five XML-reserved characters escaped. -/
def xmlEscape : QString → QString
  | [] => []
  | c :: cs => xmlEscapeChar c ++ xmlEscape cs

/-- The world of a disk, on a platform whose formats are `formats`. -/
def Disk.world (disk : Disk) (formats : QString) : World :=
  { fileInfo := disk.fileInfo, dirCount := disk.dirCount,
    getFormats := fun _ _ _ => formats, xmlEscape := xmlEscape }

/-- The entry of a game list for `path`, titled `title`, without a screenshot. -/
def GameEntry.plain (path title : String) : GameEntry :=
  { path := path.toList, title := title.toList, screenshotFile := [], eSFavorite := [] }

/-- The candidate the scan of the disk puts in the queue for `path`. -/
def Disk.candidate (disk : Disk) (path : String) : QFileInfo :=
  disk.fileInfo path.toList

/-! ### Format lists -/

/-- Two cartridges in `/roms/nes`, and a copy of the first in a subfolder. -/
def nesDisk : Disk :=
  { files := ["/roms/nes/Mario.nes".toList, "/roms/nes/Zelda.nes".toList,
              "/roms/nes/hacks/Mario.nes".toList],
    dirs := ["/roms/nes".toList, "/roms/nes/hacks".toList] }

/-- The world of `nesDisk`. -/
def nesWorld : World := nesDisk.world "*.zip *.7z *.ml *.nes".toList

/-- The old entry of `/roms/nes/Mario.nes`. -/
def marioEntry : GameEntry := GameEntry.plain "/roms/nes/Mario.nes" "Mario"

/-- One disc image with its track file in `/roms/psx/FF7`, two disc images in
`/roms/psx/Multi`. -/
def psxDisk : Disk :=
  { files := ["/roms/psx/FF7/FF7.cue".toList, "/roms/psx/FF7/FF7.bin".toList,
              "/roms/psx/Multi/disc1.cue".toList, "/roms/psx/Multi/disc2.cue".toList],
    dirs := ["/roms/psx".toList, "/roms/psx/FF7".toList, "/roms/psx/Multi".toList] }

/-- The world of `psxDisk`. -/
def psxWorld : World := psxDisk.world "*.zip *.7z *.ml *.cue *.img *.iso *.bin *.chd".toList

/-- The settings of the platform `psx` with input folder `/roms/psx`. -/
def psxSettings : Settings :=
  { platform := "psx".toList, inputFolder := "/roms/psx".toList, extensions := [],
    addExtensions := [], relativePaths := false }

/-- A laser-disc game kept as the directory `/roms/daphne/lair.daphne`, and its
frame file in `/roms/daphne/roms`. -/
def daphneDisk : Disk :=
  { files := ["/roms/daphne/roms/lair.zip".toList],
    dirs := ["/roms/daphne".toList, "/roms/daphne/roms".toList,
             "/roms/daphne/lair.daphne".toList] }

/-- The world of `daphneDisk`. -/
def daphneWorld : World := daphneDisk.world "*.daphne *.zip".toList

/-- The settings of the platform `daphne` with input folder `/roms/daphne`. -/
def daphneSettings : Settings :=
  { platform := "daphne".toList, inputFolder := "/roms/daphne".toList, extensions := [],
    addExtensions := [], relativePaths := false }

/-- The settings of the platform `nes` with input folder `/roms/nes`. -/
def nesSettings : Settings :=
  { platform := "nes".toList, inputFolder := "/roms/nes".toList, extensions := [],
    addExtensions := [], relativePaths := false }

/-- The old entry of `/roms/nes/Mario.nes` as a previous list recorded it, marked as
a favourite. -/
def favouriteOld : GameEntry :=
  { path := "/roms/nes/Mario.nes".toList, title := "Mario".toList, screenshotFile := [],
    eSFavorite := "true".toList }

/-- A frame file of the platform `daphne` below a directory whose name contains
`.zip`. -/
def daphneArchiveDisk : Disk :=
  { files := ["/roms/daphne/roms/ace.zip.d/ace.zip".toList],
    dirs := ["/roms/daphne".toList, "/roms/daphne/roms".toList,
             "/roms/daphne/roms/ace.zip.d".toList] }

/-- The world of `daphneArchiveDisk`. -/
def daphneArchiveWorld : World := daphneArchiveDisk.world "*.daphne *.zip".toList

/-- One disc image alone in a directory two levels below `/roms/psx`. -/
def nestedDisk : Disk :=
  { files := ["/roms/psx/Collection/FF7/FF7.cue".toList],
    dirs := ["/roms/psx".toList, "/roms/psx/Collection".toList,
             "/roms/psx/Collection/FF7".toList] }

/-- The world of `nestedDisk`. -/
def nestedWorld : World := nestedDisk.world "*.zip *.7z *.ml *.cue *.img *.iso *.bin *.chd".toList

/-- The settings of the platform `psx` with the input folder written `/roms/psx/`. -/
def psxSlashSettings : Settings :=
  { platform := "psx".toList, inputFolder := "/roms/psx/".toList, extensions := [],
    addExtensions := [], relativePaths := false }

/-- A game and its screenshot below an input folder whose name has an ampersand. -/
def labDisk : Disk :=
  { files := ["/roms/R&D/Mario.zip".toList, "/roms/R&D/Imgs/Mario.png".toList],
    dirs := ["/roms/R&D".toList, "/roms/R&D/Imgs".toList] }

/-- The world of `labDisk`. -/
def labWorld : World := labDisk.world "*.zip *.7z *.ml *.smc *.sfc".toList

/-- The settings of the platform `snes` with input folder `/roms/R&D`, in
relative-path mode. -/
def labSettings : Settings :=
  { platform := "snes".toList, inputFolder := "/roms/R&D".toList, extensions := [],
    addExtensions := [], relativePaths := true }

/-- The entry of the game of `labDisk`, with its screenshot. -/
def labEntry : GameEntry :=
  { path := "/roms/R&D/Mario.zip".toList, title := "Mario".toList,
    screenshotFile := "/roms/R&D/Imgs/Mario.png".toList, eSFavorite := [] }

/-! ## Properties of `skipExisting` -/

/-- The inner loop erases the first candidate that passes the test of the old entry. -/
theorem scanQueue_eq_eraseP (current : QFileInfo) (queue : Queue) :
    scanQueue current queue = queue.eraseP (matchesCandidate current) := by
  induction queue with
  | nil => rfl
  | cons cand rest ih =>
    simp only [scanQueue, List.eraseP_cons, matchesCandidate]
    cases hf : current.isFile <;> cases hd : current.isDir <;> simp [ih, matchesCandidate, hf, hd]

/-- The inner loop leaves a sublist of the queue. -/
theorem scanQueue_sublist (current : QFileInfo) (queue : Queue) :
    List.Sublist (scanQueue current queue) queue := by
  rw [scanQueue_eq_eraseP]
  exact List.eraseP_sublist queue

/-- The inner loop removes at most one candidate. -/
theorem scanQueue_length (current : QFileInfo) (queue : Queue) :
    queue.length ≤ (scanQueue current queue).length + 1 := by
  rw [scanQueue_eq_eraseP]
  have h := List.le_length_eraseP (p := matchesCandidate current) queue
  omega

/-- The inner loop changes nothing when no candidate passes the test. -/
theorem scanQueue_of_no_match (current : QFileInfo) (queue : Queue)
    (h : ∀ cand ∈ queue, matchesCandidate current cand = false) :
    scanQueue current queue = queue := by
  rw [scanQueue_eq_eraseP]
  exact List.eraseP_of_forall_not (fun a ha => by simp [h a ha])

/-- The outer loop leaves a sublist of the queue. -/
theorem resolveLoop_sublist (w : World) (entries : List GameEntry) (queue : Queue) :
    List.Sublist (resolveLoop w entries queue) queue := by
  induction entries generalizing queue with
  | nil => exact List.Sublist.refl queue
  | cons entry entries ih =>
    exact (ih (scanQueue (w.fileInfo entry.path) queue)).trans (scanQueue_sublist _ queue)

/-- The outer loop removes at most one candidate for each entry. -/
theorem resolveLoop_length (w : World) (entries : List GameEntry) (queue : Queue) :
    queue.length ≤ (resolveLoop w entries queue).length + entries.length := by
  induction entries generalizing queue with
  | nil => simp [resolveLoop]
  | cons entry entries ih =>
    have h₁ := ih (scanQueue (w.fileInfo entry.path) queue)
    have h₂ := scanQueue_length (w.fileInfo entry.path) queue
    simp only [resolveLoop, List.length_cons]
    omega

/-- The outer loop changes nothing when no entry claims a candidate. -/
theorem resolveLoop_of_no_match (w : World) (entries : List GameEntry) (queue : Queue)
    (h : ∀ entry ∈ entries, ∀ cand ∈ queue,
      matchesCandidate (w.fileInfo entry.path) cand = false) :
    resolveLoop w entries queue = queue := by
  induction entries with
  | nil => rfl
  | cons entry entries ih =>
    simp only [resolveLoop]
    rw [scanQueue_of_no_match _ _ (h entry (List.mem_cons_self _ _))]
    exact ih (fun e he => h e (List.mem_cons_of_mem _ he))

/-- C1: with a single old entry whose path is a regular file, `skipExisting` hands
back that entry and either no candidate has its file name and the queue is left as
it was, or the queue loses exactly the first candidate with that file name. -/
theorem skipExisting_single_file (w : World) (old : GameEntry)
    (gameEntries : List GameEntry) (queue : Queue)
    (hfile : (w.fileInfo old.path).isFile = true) :
    (skipExisting w [old] gameEntries queue).gameEntries = [old] ∧
    (((∀ cand ∈ queue, cand.fileName ≠ (w.fileInfo old.path).fileName) ∧
        (skipExisting w [old] gameEntries queue).queue = queue) ∨
      ∃ front cand back, queue = front ++ cand :: back ∧
        cand.fileName = (w.fileInfo old.path).fileName ∧
        (∀ c ∈ front, c.fileName ≠ (w.fileInfo old.path).fileName) ∧
        (skipExisting w [old] gameEntries queue).queue = front ++ back) := by
  refine ⟨rfl, ?_⟩
  simp only [skipExisting, resolveLoop]
  induction queue with
  | nil => left; simp [scanQueue]
  | cons cand rest ih =>
    by_cases hc : cand.fileName = (w.fileInfo old.path).fileName
    · right
      refine ⟨[], cand, rest, rfl, hc, by simp, ?_⟩
      simp [scanQueue, hfile, hc]
    · have hstep : scanQueue (w.fileInfo old.path) (cand :: rest)
          = cand :: scanQueue (w.fileInfo old.path) rest := by
        have hc' : ¬ (w.fileInfo old.path).fileName = cand.fileName := fun h => hc h.symm
        simp [scanQueue, hfile, hc']
      rcases ih with ⟨hnone, hsame⟩ | ⟨front, c, back, hq, hname, hfront, hres⟩
      · left
        refine ⟨?_, by rw [hstep, hsame]⟩
        intro c hmem
        rcases List.mem_cons.mp hmem with rfl | hmem
        · exact hc
        · exact hnone c hmem
      · right
        refine ⟨cand :: front, c, back, by rw [hq]; rfl, hname, ?_, by rw [hstep, hres]; rfl⟩
        intro d hmem
        rcases List.mem_cons.mp hmem with rfl | hmem
        · exact hc
        · exact hfront d hmem

/-- C1, the scenario of the specification: the old entry `/roms/nes/Mario.nes` against
the queue of `Mario.nes` and `Zelda.nes` leaves `Zelda.nes` in the queue and hands
back the old entry. -/
theorem skipExisting_single_file_scenario :
    (nesWorld.fileInfo marioEntry.path).isFile = true ∧
    (skipExisting nesWorld [marioEntry] []
      [nesDisk.candidate "/roms/nes/Mario.nes",
       nesDisk.candidate "/roms/nes/Zelda.nes"]).gameEntries = [marioEntry] ∧
    (skipExisting nesWorld [marioEntry] []
      [nesDisk.candidate "/roms/nes/Mario.nes",
       nesDisk.candidate "/roms/nes/Zelda.nes"]).queue
      = [nesDisk.candidate "/roms/nes/Zelda.nes"] :=
  ⟨by decide,
   (skipExisting_single_file nesWorld marioEntry []
      [nesDisk.candidate "/roms/nes/Mario.nes", nesDisk.candidate "/roms/nes/Zelda.nes"]
      (by decide)).1,
   by decide⟩

/-- C2: `skipExisting` never makes the queue longer, and the number of candidates it
removes is at most the number of old entries. -/
theorem skipExisting_length (w : World) (oldEntries gameEntries : List GameEntry)
    (queue : Queue) :
    (skipExisting w oldEntries gameEntries queue).queue.length ≤ queue.length ∧
    queue.length - (skipExisting w oldEntries gameEntries queue).queue.length
      ≤ oldEntries.length := by
  have h₁ := (resolveLoop_sublist w oldEntries queue).length_le
  have h₂ := resolveLoop_length w oldEntries queue
  simp only [skipExisting]
  omega

/-- C3: whatever `gameEntries` held before, `skipExisting` returns `true` and leaves
in it the list of old entries, whole and in order. -/
theorem skipExisting_carries_all (w : World) (oldEntries gameEntries : List GameEntry)
    (queue : Queue) :
    (skipExisting w oldEntries gameEntries queue).ret = true ∧
    (skipExisting w oldEntries gameEntries queue).gameEntries = oldEntries :=
  ⟨rfl, rfl⟩

/-- After the first hit is erased nothing passes a test that at most one element
passed. -/
theorem eraseP_no_match_of_countP_le_one {α : Type} (p : α → Bool) (l : List α)
    (h : l.countP p ≤ 1) : ∀ a ∈ l.eraseP p, p a = false := by
  induction l with
  | nil => simp
  | cons x xs ih =>
    by_cases hx : p x = true
    · rw [List.eraseP_cons_of_pos hx]
      rw [List.countP_cons_of_pos _ _ hx] at h
      have hzero : xs.countP p = 0 := by omega
      intro a ha
      have := (List.countP_eq_zero.mp hzero) a ha
      simpa using this
    · rw [List.eraseP_cons_of_neg hx]
      rw [List.countP_cons_of_neg _ _ hx] at h
      intro a ha
      rcases List.mem_cons.mp ha with rfl | ha
      · simpa using hx
      · exact ih h a ha

/-- Erasing by a test that an element fails keeps every copy of that element. -/
theorem count_eraseP_of_no_match {α : Type} [DecidableEq α] (p : α → Bool) (a : α)
    (l : List α) (h : p a = false) : (l.eraseP p).count a = l.count a := by
  induction l with
  | nil => rfl
  | cons x xs ih =>
    by_cases hx : p x = true
    · rw [List.eraseP_cons_of_pos hx]
      have hne : x ≠ a := by
        rintro rfl
        rw [h] at hx
        exact Bool.false_ne_true hx
      rw [List.count_cons_of_ne (Ne.symm hne)]
    · rw [List.eraseP_cons_of_neg hx]
      by_cases hxa : x = a
      · subst hxa
        simp [ih]
      · rw [List.count_cons_of_ne (Ne.symm hxa), List.count_cons_of_ne (Ne.symm hxa), ih]

/-- The outer loop, when every entry claims at most one candidate of the queue,
leaves a queue in which no entry claims a candidate. -/
theorem resolveLoop_no_match_left (w : World) (entries : List GameEntry) (queue : Queue)
    (h : ∀ entry ∈ entries,
      queue.countP (matchesCandidate (w.fileInfo entry.path)) ≤ 1) :
    ∀ entry ∈ entries, ∀ cand ∈ resolveLoop w entries queue,
      matchesCandidate (w.fileInfo entry.path) cand = false := by
  induction entries generalizing queue with
  | nil => simp
  | cons e rest ih =>
    intro entry hentry cand hcand
    simp only [resolveLoop] at hcand
    rcases List.mem_cons.mp hentry with rfl | hentry
    · have hsub := (resolveLoop_sublist w rest (scanQueue (w.fileInfo entry.path) queue)).subset
      have hmem := hsub hcand
      rw [scanQueue_eq_eraseP] at hmem
      exact eraseP_no_match_of_countP_le_one _ queue (h entry (List.mem_cons_self _ _)) cand hmem
    · refine ih (scanQueue (w.fileInfo e.path) queue) ?_ entry hentry cand hcand
      intro o ho
      exact le_trans (List.Sublist.countP_le _ (scanQueue_sublist _ queue))
        (h o (List.mem_cons_of_mem _ ho))

/-- C4, as the specification states it, fails: the old entry `/roms/nes/Mario.nes`
against a queue with two candidates named `Mario.nes` removes the first of them in
the first pass and the second in a second pass. -/
theorem reconcile_twice_removes_more :
    reconcile nesWorld [marioEntry]
        [nesDisk.candidate "/roms/nes/Mario.nes", nesDisk.candidate "/roms/nes/hacks/Mario.nes"]
      = [nesDisk.candidate "/roms/nes/hacks/Mario.nes"] ∧
    reconcile nesWorld [marioEntry]
        (reconcile nesWorld [marioEntry]
          [nesDisk.candidate "/roms/nes/Mario.nes",
           nesDisk.candidate "/roms/nes/hacks/Mario.nes"])
      = [] ∧
    reconcile nesWorld [marioEntry]
        (reconcile nesWorld [marioEntry]
          [nesDisk.candidate "/roms/nes/Mario.nes",
           nesDisk.candidate "/roms/nes/hacks/Mario.nes"])
      ≠ reconcile nesWorld [marioEntry]
          [nesDisk.candidate "/roms/nes/Mario.nes",
           nesDisk.candidate "/roms/nes/hacks/Mario.nes"] := by
  decide

/-- C4, amended: when every old entry claims at most one candidate of the queue (the
uniqueness the code assumes), a second pass of `skipExisting` with the same old
entries over the queue the first pass left removes nothing. -/
theorem reconcile_idempotent_of_unique (w : World) (oldEntries : List GameEntry)
    (queue : Queue)
    (hunique : ∀ old ∈ oldEntries,
      queue.countP (matchesCandidate (w.fileInfo old.path)) ≤ 1) :
    reconcile w oldEntries (reconcile w oldEntries queue) = reconcile w oldEntries queue := by
  simp only [reconcile, skipExisting]
  exact resolveLoop_of_no_match w oldEntries _
    (resolveLoop_no_match_left w oldEntries queue hunique)

/-- C4, amended, at the scenario of the specification: the queue of `Mario.nes` and
`Zelda.nes` has one candidate for the old entry, and a second pass leaves
`Zelda.nes` as the first did. -/
theorem reconcile_idempotent_of_unique_scenario :
    (∀ old ∈ [marioEntry],
      List.countP (matchesCandidate (nesWorld.fileInfo old.path))
        [nesDisk.candidate "/roms/nes/Mario.nes", nesDisk.candidate "/roms/nes/Zelda.nes"]
        ≤ 1) ∧
    reconcile nesWorld [marioEntry]
        [nesDisk.candidate "/roms/nes/Mario.nes", nesDisk.candidate "/roms/nes/Zelda.nes"]
      = [nesDisk.candidate "/roms/nes/Zelda.nes"] ∧
    reconcile nesWorld [marioEntry]
        (reconcile nesWorld [marioEntry]
          [nesDisk.candidate "/roms/nes/Mario.nes", nesDisk.candidate "/roms/nes/Zelda.nes"])
      = reconcile nesWorld [marioEntry]
          [nesDisk.candidate "/roms/nes/Mario.nes", nesDisk.candidate "/roms/nes/Zelda.nes"] :=
  ⟨by decide, by decide,
   reconcile_idempotent_of_unique nesWorld [marioEntry]
     [nesDisk.candidate "/roms/nes/Mario.nes", nesDisk.candidate "/roms/nes/Zelda.nes"]
     (by decide)⟩

/-- The outer loop keeps every copy of a candidate that no entry claims. -/
theorem resolveLoop_count_of_no_match (w : World) (entries : List GameEntry)
    (queue : Queue) (cand : QFileInfo)
    (h : ∀ entry ∈ entries, matchesCandidate (w.fileInfo entry.path) cand = false) :
    (resolveLoop w entries queue).count cand = queue.count cand := by
  induction entries generalizing queue with
  | nil => rfl
  | cons e rest ih =>
    simp only [resolveLoop]
    rw [ih _ (fun o ho => h o (List.mem_cons_of_mem _ ho)), scanQueue_eq_eraseP]
    exact count_eraseP_of_no_match _ cand queue (h e (List.mem_cons_self _ _))

/-- The outer loop passes over the entries whose path is neither a regular file nor a
directory. -/
theorem resolveLoop_filter_existing (w : World) (entries : List GameEntry) (queue : Queue) :
    resolveLoop w entries queue
      = resolveLoop w
          (entries.filter
            (fun old => (w.fileInfo old.path).isFile || (w.fileInfo old.path).isDir))
          queue := by
  induction entries generalizing queue with
  | nil => rfl
  | cons e rest ih =>
    by_cases he : ((w.fileInfo e.path).isFile || (w.fileInfo e.path).isDir) = true
    · simp only [List.filter_cons, he, if_true, resolveLoop]
      exact ih _
    · simp only [List.filter_cons, he, if_false, resolveLoop]
      have hnone : scanQueue (w.fileInfo e.path) queue = queue := by
        apply scanQueue_of_no_match
        intro cand _
        simp only [Bool.or_eq_true, not_or, Bool.not_eq_true] at he
        simp [matchesCandidate, he.1, he.2]
      rw [hnone]
      exact ih queue

/-- C5: the queue `skipExisting` leaves is a sublist of the queue it was given (the
candidates that remain, in their order, and nothing else); a candidate keeps all its
copies when no old entry that is a regular file has its file name and no old entry
that is a directory has, as its absolute path, the path `absolutePath()` of the
candidate; and the old entries whose path is neither a regular file nor a
directory remove nothing, the queue being the one the other old entries alone
leave. -/
theorem skipExisting_removal_only (w : World) (oldEntries gameEntries : List GameEntry)
    (queue : Queue) :
    List.Sublist (skipExisting w oldEntries gameEntries queue).queue queue ∧
    (∀ cand : QFileInfo,
      (∀ old ∈ oldEntries, (w.fileInfo old.path).isFile = true →
        (w.fileInfo old.path).fileName ≠ cand.fileName) →
      (∀ old ∈ oldEntries, (w.fileInfo old.path).isDir = true →
        (w.fileInfo old.path).absoluteFilePath ≠ cand.absolutePath) →
      (skipExisting w oldEntries gameEntries queue).queue.count cand = queue.count cand ∧
      (cand ∈ queue → cand ∈ (skipExisting w oldEntries gameEntries queue).queue)) ∧
    (skipExisting w oldEntries gameEntries queue).queue
      = (skipExisting w
          (oldEntries.filter
            (fun old => (w.fileInfo old.path).isFile || (w.fileInfo old.path).isDir))
          gameEntries queue).queue := by
  refine ⟨resolveLoop_sublist w oldEntries queue, ?_, resolveLoop_filter_existing w oldEntries queue⟩
  intro cand hfile hdir
  have hnone : ∀ entry ∈ oldEntries,
      matchesCandidate (w.fileInfo entry.path) cand = false := by
    intro entry hentry
    unfold matchesCandidate
    cases hf : (w.fileInfo entry.path).isFile
    · cases hd : (w.fileInfo entry.path).isDir
      · simp
      · simpa using hdir entry hentry hd
    · simpa using hfile entry hentry hf
  have hcount : (skipExisting w oldEntries gameEntries queue).queue.count cand
      = queue.count cand := resolveLoop_count_of_no_match w oldEntries queue cand hnone
  refine ⟨hcount, fun hmem => ?_⟩
  have hpos : 0 < queue.count cand := List.count_pos_iff.mpr hmem
  rw [← hcount] at hpos
  exact List.count_pos_iff.mp hpos

/-! ## Properties of `assembleList` -/

/-- A path is not both a regular file and a directory. -/
theorem QFileInfo.isDir_of_isFile (info : QFileInfo) (h : info.isFile = true) :
    info.isDir = false := by
  unfold QFileInfo.isFile at h
  unfold QFileInfo.isDir
  cases hk : info.kind <;> simp_all

/-- Classification chooses one of the two element names. -/
theorem classifyEntry_type (w : World) (config : Settings) (entry : GameEntry) :
    (classifyEntry w config entry).1 = "game".toList ∨
    (classifyEntry w config entry).1 = "folder".toList := by
  unfold classifyEntry
  simp only []
  split_ifs <;> simp

/-- The element name under which an entry is written is one of the two. -/
theorem finalizeEntry_type (w : World) (config : Settings) (entry : GameEntry) :
    (finalizeEntry w config entry).1 = "game".toList ∨
    (finalizeEntry w config entry).1 = "folder".toList := by
  simp only [finalizeEntry, daphneOverride]
  split_ifs
  · exact Or.inl rfl
  · exact classifyEntry_type w config entry

/-- Classification touches no field of the entry but its path. -/
theorem classifyEntry_fields (w : World) (config : Settings) (entry : GameEntry) :
    (classifyEntry w config entry).2.title = entry.title ∧
    (classifyEntry w config entry).2.screenshotFile = entry.screenshotFile ∧
    (classifyEntry w config entry).2.eSFavorite = entry.eSFavorite := by
  unfold classifyEntry
  simp only []
  split_ifs <;> simp

/-- The rewrites of `assembleList` touch no field of the entry but its path. -/
theorem finalizeEntry_fields (w : World) (config : Settings) (entry : GameEntry) :
    (finalizeEntry w config entry).2.title = entry.title ∧
    (finalizeEntry w config entry).2.screenshotFile = entry.screenshotFile ∧
    (finalizeEntry w config entry).2.eSFavorite = entry.eSFavorite := by
  have h := classifyEntry_fields w config entry
  simp only [finalizeEntry, daphneOverride, relativize, preserveFromOld]
  split_ifs <;> simp [h]

/-- The text of one element, as the five `append`s of `emitEntry` put it together. -/
theorem emitEntry_eq (w : World) (config : Settings) (finalOutput entryType : QString)
    (entry : GameEntry) :
    emitEntry w config finalOutput entryType entry
      = finalOutput ++ ("  <".toList ++ entryType ++ ">\n".toList
          ++ ("    <path>".toList ++ w.xmlEscape entry.path ++ "</path>\n".toList)
          ++ ("    <name>".toList ++ w.xmlEscape entry.title ++ "</name>\n".toList)
          ++ imageLine w config entry
          ++ ("  </".toList ++ entryType ++ ">\n".toList)) := by
  unfold emitEntry
  simp only [List.append_assoc]

/-- The loop appends the elements of the entries, one after the other. -/
theorem assembleLoop_eq (w : World) (config : Settings) (finalOutput : QString)
    (entries : List GameEntry) :
    assembleLoop w config finalOutput entries
      = (finalOutput ++ (entries.map (fun entry =>
            emitEntry w config [] (finalizeEntry w config entry).1
              (finalizeEntry w config entry).2)).flatten,
         entries.map (fun entry => (finalizeEntry w config entry).2)) := by
  induction entries generalizing finalOutput with
  | nil => simp [assembleLoop]
  | cons entry entries ih =>
    simp only [assembleLoop, ih, List.map_cons, List.flatten_cons]
    rw [emitEntry_eq w config finalOutput, emitEntry_eq w config []]
    simp only [List.append_assoc, List.nil_append]

/-- C6: with no entry, and whatever the settings and the world, `assembleList` on an
empty output gives the declaration, the opening root tag and the closing root tag,
and nothing else. -/
theorem assembleList_empty (w : World) (config : Settings) :
    (assembleList w config [] []).1
      = "<?xml version=\"1.0\"?>\n<gameList>\n</gameList>".toList ∧
    (assembleList w config [] []).2 = [] :=
  ⟨rfl, rfl⟩

/-- The text `assembleList` writes on an empty output: the header, the elements of
the entries in the order of the list, and the closing root tag. -/
theorem assembleList_text (w : World) (config : Settings) (entries : List GameEntry) :
    (assembleList w config [] entries).1
      = "<?xml version=\"1.0\"?>\n<gameList>\n".toList
        ++ (entries.map (fun entry =>
              "  <".toList ++ (finalizeEntry w config entry).1 ++ ">\n".toList
              ++ ("    <path>".toList ++ w.xmlEscape (finalizeEntry w config entry).2.path
                    ++ "</path>\n".toList)
              ++ ("    <name>".toList ++ w.xmlEscape entry.title ++ "</name>\n".toList)
              ++ imageLine w config entry
              ++ ("  </".toList ++ (finalizeEntry w config entry).1 ++ ">\n".toList))).flatten
        ++ "</gameList>".toList := by
  simp only [assembleList, assembleLoop_eq, List.nil_append]
  congr 3
  apply List.map_congr_left
  intro entry _
  rw [emitEntry_eq]
  have h := finalizeEntry_fields w config entry
  simp only [imageLine, h.1, h.2.1, List.nil_append]

/-- C7: on an empty output `assembleList` writes the header, then one element for
each entry in the order of the list, then the closing root tag.  The element of an
entry is its opening tag, the line of its escaped final path, the line of its
escaped title, one image line and its closing tag, the tag name being `game` or
`folder` and the same in both tags; the final path is the path the entry has in the
list when `assembleList` returns. -/
theorem assembleList_structure (w : World) (config : Settings) (entries : List GameEntry) :
    (assembleList w config [] entries).1
      = "<?xml version=\"1.0\"?>\n<gameList>\n".toList
        ++ (entries.map (fun entry =>
              "  <".toList ++ (finalizeEntry w config entry).1 ++ ">\n".toList
              ++ ("    <path>".toList ++ w.xmlEscape (finalizeEntry w config entry).2.path
                    ++ "</path>\n".toList)
              ++ ("    <name>".toList ++ w.xmlEscape entry.title ++ "</name>\n".toList)
              ++ imageLine w config entry
              ++ ("  </".toList ++ (finalizeEntry w config entry).1 ++ ">\n".toList))).flatten
        ++ "</gameList>".toList ∧
    (assembleList w config [] entries).2
      = entries.map (fun entry => (finalizeEntry w config entry).2) ∧
    (∀ entry, (finalizeEntry w config entry).1 = "game".toList ∨
      (finalizeEntry w config entry).1 = "folder".toList) ∧
    (∀ entry, imageLine w config entry = "    <image />\n".toList ∨
      ∃ content, imageLine w config entry
        = "    <image>".toList ++ content ++ "</image>\n".toList) := by
  refine ⟨assembleList_text w config entries, ?_, finalizeEntry_type w config, ?_⟩
  · simp only [assembleList, assembleLoop_eq]
  · intro entry
    unfold imageLine
    split_ifs
    · exact Or.inl rfl
    · exact Or.inr ⟨_, rfl⟩
    · exact Or.inr ⟨_, rfl⟩

/-- C8: on the platform `daphne` classification leaves the entry as it is (its path
is not replaced by the parent directory), whatever the path is on disk; the element
is written as `game`; and its final path is the path of the entry after the two
rewrites of the platform and the substitution of relative-path mode. -/
theorem daphne_always_game (w : World) (config : Settings) (entry : GameEntry)
    (hdaphne : config.platform = "daphne".toList) :
    (classifyEntry w config entry).2 = entry ∧
    (finalizeEntry w config entry).1 = "game".toList ∧
    (finalizeEntry w config entry).2.path
      = (if config.relativePaths then
          QString.replace
            (QString.replace
              (QString.replace entry.path "daphne/roms/".toList "daphne/".toList)
              ".zip".toList ".daphne".toList)
            config.inputFolder ".".toList
        else
          QString.replace
            (QString.replace entry.path "daphne/roms/".toList "daphne/".toList)
            ".zip".toList ".daphne".toList) ∧
    (assembleList w config [] [entry]).1
      = "<?xml version=\"1.0\"?>\n<gameList>\n".toList
        ++ ("  <game>\n".toList
            ++ ("    <path>".toList ++ w.xmlEscape (finalizeEntry w config entry).2.path
                  ++ "</path>\n".toList)
            ++ ("    <name>".toList ++ w.xmlEscape entry.title ++ "</name>\n".toList)
            ++ imageLine w config entry
            ++ "  </game>\n".toList)
        ++ "</gameList>".toList := by
  have hclass : (classifyEntry w config entry).2 = entry := by
    unfold classifyEntry
    simp only [hdaphne, bne_self_eq_false, Bool.and_false, Bool.false_eq_true, if_false]
    split_ifs <;> rfl
  have htype : (finalizeEntry w config entry).1 = "game".toList := by
    simp [finalizeEntry, daphneOverride, hdaphne]
  refine ⟨hclass, htype, ?_, ?_⟩
  · simp only [finalizeEntry, daphneOverride, relativize, preserveFromOld, hclass, hdaphne,
      beq_self_eq_true, if_true, ite_self]
    split_ifs <;> rfl
  · have hopen : "  <".toList ++ "game".toList ++ ">\n".toList = "  <game>\n".toList := by
      decide
    have hclose : "  </".toList ++ "game".toList ++ ">\n".toList = "  </game>\n".toList := by
      decide
    rw [assembleList_text w config [entry]]
    simp only [List.map_cons, List.map_nil, List.flatten_cons, List.flatten_nil,
      List.append_nil, htype, hopen, hclose]

/-- C8, at a directory: `/roms/daphne/lair.daphne` is a directory of the disk, and on
the platform `daphne` it is written as `game` with its own path. -/
theorem daphne_always_game_scenario :
    daphneSettings.platform = "daphne".toList ∧
    (daphneWorld.fileInfo "/roms/daphne/lair.daphne".toList).isDir = true ∧
    (classifyEntry daphneWorld daphneSettings
      (GameEntry.plain "/roms/daphne/lair.daphne" "Dragon Lair")).2
      = GameEntry.plain "/roms/daphne/lair.daphne" "Dragon Lair" ∧
    finalizeEntry daphneWorld daphneSettings
      (GameEntry.plain "/roms/daphne/lair.daphne" "Dragon Lair")
      = ("game".toList, GameEntry.plain "/roms/daphne/lair.daphne" "Dragon Lair") :=
  ⟨by decide, by decide,
   (daphne_always_game daphneWorld daphneSettings
      (GameEntry.plain "/roms/daphne/lair.daphne" "Dragon Lair") (by decide)).1,
   by decide⟩

/-- The two element names are different words. -/
theorem game_ne_folder : "game".toList ≠ "folder".toList := by decide

/-- Off the platform `daphne` the element name is the one classification chose. -/
theorem finalizeEntry_type_eq (w : World) (config : Settings) (entry : GameEntry)
    (hplatform : config.platform ≠ "daphne".toList) :
    (finalizeEntry w config entry).1 = (classifyEntry w config entry).1 := by
  have hb : (config.platform == "daphne".toList) = false := beq_eq_false_iff_ne.mpr hplatform
  simp only [finalizeEntry, daphneOverride, hb, Bool.false_eq_true, if_false]

/-- Classification off the platform `daphne`, case by case. -/
theorem classifyEntry_cases (w : World) (config : Settings) (entry : GameEntry)
    (hplatform : config.platform ≠ "daphne".toList) :
    classifyEntry w config entry
      = if (w.fileInfo entry.path).isFile = true ∧
            QString.count (w.fileInfo entry.path).absolutePath "/".toList
              = QString.count config.inputFolder "/".toList + 1 ∧
            w.dirCount (w.fileInfo entry.path).absolutePath (countingFilter w config) = 1 then
          ("folder".toList, { entry with path := (w.fileInfo entry.path).absolutePath })
        else if (w.fileInfo entry.path).isDir = true then ("folder".toList, entry)
        else ("game".toList, entry) := by
  unfold classifyEntry
  have hne : (config.platform != "daphne".toList) = true := bne_iff_ne.mpr hplatform
  cases hf : (w.fileInfo entry.path).isFile
  · simp only [hf, Bool.false_and, Bool.false_eq_true, if_false, false_and]
  · have hd := QFileInfo.isDir_of_isFile _ hf
    simp only [hf, hne, Bool.and_self, if_true, beq_iff_eq, true_and, hd, Bool.false_eq_true,
      if_false]
    split_ifs <;> simp_all

/-- C9: off the platform `daphne` the element is `folder` exactly when the path of
the entry is a directory, or is a regular file whose parent directory has one `/`
more than the input folder and holds exactly one entry that passes the counting
filter; the element is `game` otherwise; classification replaces the path by the
parent directory in the second case and leaves the entry as it is in every other. -/
theorem folder_iff_dir_or_promoted (w : World) (config : Settings) (entry : GameEntry)
    (hplatform : config.platform ≠ "daphne".toList) :
    ((finalizeEntry w config entry).1 = "folder".toList ↔
      ((w.fileInfo entry.path).isDir = true ∨
        ((w.fileInfo entry.path).isFile = true ∧
          QString.count (w.fileInfo entry.path).absolutePath "/".toList
            = QString.count config.inputFolder "/".toList + 1 ∧
          w.dirCount (w.fileInfo entry.path).absolutePath (countingFilter w config) = 1))) ∧
    ((finalizeEntry w config entry).1 ≠ "folder".toList →
      (finalizeEntry w config entry).1 = "game".toList) ∧
    (((w.fileInfo entry.path).isFile = true ∧
        QString.count (w.fileInfo entry.path).absolutePath "/".toList
          = QString.count config.inputFolder "/".toList + 1 ∧
        w.dirCount (w.fileInfo entry.path).absolutePath (countingFilter w config) = 1) →
      (classifyEntry w config entry).2
        = { entry with path := (w.fileInfo entry.path).absolutePath }) ∧
    (¬ ((w.fileInfo entry.path).isFile = true ∧
        QString.count (w.fileInfo entry.path).absolutePath "/".toList
          = QString.count config.inputFolder "/".toList + 1 ∧
        w.dirCount (w.fileInfo entry.path).absolutePath (countingFilter w config) = 1) →
      (classifyEntry w config entry).2 = entry) := by
  rw [finalizeEntry_type_eq w config entry hplatform, classifyEntry_cases w config entry hplatform]
  refine ⟨?_, ?_, ?_, ?_⟩
  · constructor
    · intro h
      split_ifs at h with hp hd
      · exact Or.inr hp
      · exact Or.inl hd
      · exact absurd h game_ne_folder
    · intro h
      split_ifs with hp hd
      · rfl
      · rfl
      · rcases h with h | h
        · exact absurd h hd
        · exact absurd h hp
  · intro h
    split_ifs at h ⊢ with hp hd
    · exact absurd rfl h
    · exact absurd rfl h
    · rfl
  · intro hp
    rw [if_pos hp]
  · intro hp
    rw [if_neg hp]
    split_ifs <;> rfl

/-- C9, at both kinds of folder: off the platform `daphne`, the disc image that is
alone in `/roms/psx/FF7` is written as `folder` with the path of that directory, and
the directory `/roms/psx/Multi` is written as `folder` with its own path. -/
theorem folder_iff_dir_or_promoted_scenario :
    psxSettings.platform ≠ "daphne".toList ∧
    finalizeEntry psxWorld psxSettings (GameEntry.plain "/roms/psx/FF7/FF7.cue" "FF7")
      = ("folder".toList, GameEntry.plain "/roms/psx/FF7" "FF7") ∧
    finalizeEntry psxWorld psxSettings (GameEntry.plain "/roms/psx/Multi" "Multi")
      = ("folder".toList, GameEntry.plain "/roms/psx/Multi" "Multi") ∧
    ((finalizeEntry psxWorld psxSettings (GameEntry.plain "/roms/psx/Multi" "Multi")).1
        = "folder".toList ↔
      ((psxWorld.fileInfo (GameEntry.plain "/roms/psx/Multi" "Multi").path).isDir = true ∨
        ((psxWorld.fileInfo (GameEntry.plain "/roms/psx/Multi" "Multi").path).isFile = true ∧
          QString.count
              (psxWorld.fileInfo (GameEntry.plain "/roms/psx/Multi" "Multi").path).absolutePath
              "/".toList
            = QString.count psxSettings.inputFolder "/".toList + 1 ∧
          psxWorld.dirCount
              (psxWorld.fileInfo (GameEntry.plain "/roms/psx/Multi" "Multi").path).absolutePath
              (countingFilter psxWorld psxSettings) = 1))) :=
  ⟨by decide, by decide, by decide,
   (folder_iff_dir_or_promoted psxWorld psxSettings (GameEntry.plain "/roms/psx/Multi" "Multi")
      (by decide)).1⟩

/-! ## The reduction of the format list -/

/-- The characters of an occurrence that are still to be skipped are skipped. -/
theorem replaceGo_skip (before after s t : QString) :
    QString.replaceGo before after s.length (s ++ t) = QString.replaceGo before after 0 t := by
  induction s with
  | nil => rfl
  | cons c cs ih =>
    rw [List.cons_append, List.length_cons]
    simp only [QString.replaceGo]
    exact ih

/-- An occurrence at the head of the text is replaced, and the scan goes on behind
it. -/
theorem replaceGo_occurrence (before after t : QString) (hne : before ≠ []) :
    QString.replaceGo before after 0 (before ++ t)
      = after ++ QString.replaceGo before after 0 t := by
  cases before with
  | nil => exact absurd rfl hne
  | cons b bs =>
    have hpre : List.isPrefixOf (b :: bs) (b :: (bs ++ t)) = true := by
      rw [List.isPrefixOf_iff_prefix, ← List.cons_append]
      exact List.prefix_append _ _
    have hlen : (b :: bs).length - 1 = bs.length := by simp
    rw [List.cons_append]
    simp only [QString.replaceGo, hpre, if_true, List.isEmpty_cons, Bool.false_eq_true,
      if_false, hlen]
    rw [replaceGo_skip]

/-- A character at which no occurrence begins is copied. -/
theorem replaceGo_copy (before after : QString) (c : Char) (cs : QString)
    (h : List.isPrefixOf before (c :: cs) = false) :
    QString.replaceGo before after 0 (c :: cs)
      = c :: QString.replaceGo before after 0 cs := by
  simp only [QString.replaceGo, h, Bool.false_eq_true, if_false]

/-- A run of characters other than the first character of `before` is copied. -/
theorem replaceGo_copy_run (b : Char) (bs after s t : QString) (hs : ∀ c ∈ s, c ≠ b) :
    QString.replaceGo (b :: bs) after 0 (s ++ t)
      = s ++ QString.replaceGo (b :: bs) after 0 t := by
  induction s with
  | nil => rfl
  | cons c cs ih =>
    have hc : List.isPrefixOf (b :: bs) (c :: (cs ++ t)) = false := by
      have : (b == c) = false := beq_eq_false_iff_ne.mpr (Ne.symm (hs c (List.mem_cons_self _ _)))
      simp only [List.isPrefixOf, this, Bool.false_and]
    rw [List.cons_append, replaceGo_copy _ _ _ _ hc,
      ih (fun d hd => hs d (List.mem_cons_of_mem _ hd))]
    rfl

/-- A text in which `before` does not occur is left as it is. -/
theorem replace_of_not_contains (s before after : QString) (hne : before ≠ [])
    (h : QString.contains s before = false) : QString.replace s before after = s := by
  unfold QString.replace
  induction s with
  | nil =>
    cases before with
    | nil => exact absurd rfl hne
    | cons b bs => rfl
  | cons c cs ih =>
    simp only [QString.contains, Bool.or_eq_false_iff] at h
    rw [replaceGo_copy _ _ _ _ h.1, ih h.2]

/-- A text that begins with `before`: the occurrence at the head is replaced, and
every later occurrence as the scan of the rest finds it. -/
theorem replace_leading (before after rest : QString) (hne : before ≠ []) :
    QString.replace (before ++ rest) before after
      = after ++ QString.replace rest before after :=
  replaceGo_occurrence before after rest hne

/-! ## The rewrites of the path -/

/-- `preserveFromOld` hands back the entry it was given. -/
theorem preserveFromOld_eq (entry : GameEntry) : preserveFromOld entry = entry := by
  unfold preserveFromOld
  exact ite_self entry

/-- The path of an entry before the substitution of relative-path mode: the path
after classification and after the rewrites of the platform `daphne`. -/
theorem finalizeEntry_path (w : World) (config : Settings) (entry : GameEntry) :
    (finalizeEntry w config entry).2.path
      = if config.relativePaths = true then
          QString.replace
            (daphneOverride config
              ((classifyEntry w config entry).1, (classifyEntry w config entry).2)).2.path
            config.inputFolder ".".toList
        else
          (daphneOverride config
            ((classifyEntry w config entry).1, (classifyEntry w config entry).2)).2.path := by
  simp only [finalizeEntry, preserveFromOld_eq, relativize]
  split_ifs <;> rfl

/-- Off the platform `daphne` the rewrites of that platform are not applied. -/
theorem daphneOverride_of_ne (config : Settings) (typed : QString × GameEntry)
    (hplatform : config.platform ≠ "daphne".toList) : daphneOverride config typed = typed := by
  have hb : (config.platform == "daphne".toList) = false := beq_eq_false_iff_ne.mpr hplatform
  simp only [daphneOverride, hb, Bool.false_eq_true, if_false]

/-- C13, as the specification states it, fails: on the platform `daphne` the path
`/roms/daphne/roms/ace.zip.d/ace.zip` has its `.zip` rewritten in the name of the
directory too. -/
theorem daphne_rewrites_inner_zip :
    daphneSettings.platform = "daphne".toList ∧
    (finalizeEntry daphneArchiveWorld daphneSettings
      (GameEntry.plain "/roms/daphne/roms/ace.zip.d/ace.zip" "Ace")).2.path
      = "/roms/daphne/ace.daphne.d/ace.daphne".toList ∧
    (finalizeEntry daphneArchiveWorld daphneSettings
      (GameEntry.plain "/roms/daphne/roms/ace.zip.d/ace.zip" "Ace")).2.path
      ≠ "/roms/daphne/ace.zip.d/ace.daphne".toList := by
  decide

/-- C13, amended: on the platform `daphne` the path before the substitution of
relative-path mode is the path of the entry with every occurrence of `daphne/roms/`
replaced by `daphne/` and then every occurrence of `.zip` replaced by `.daphne`; on
any other platform it is the path classification left.  The substitution of
relative-path mode is applied to that path.  A path that ends in `.zip` and has no
other `.` gets `.daphne` in its place, and a path without `daphne/roms/` is left as
it is by the first rewrite. -/
theorem daphne_rewrites_every_occurrence (w : World) (config : Settings)
    (entry : GameEntry) :
    (config.platform = "daphne".toList →
      (daphneOverride config
        ((classifyEntry w config entry).1, (classifyEntry w config entry).2)).2.path
        = QString.replace
            (QString.replace entry.path "daphne/roms/".toList "daphne/".toList)
            ".zip".toList ".daphne".toList) ∧
    (config.platform ≠ "daphne".toList →
      (daphneOverride config
        ((classifyEntry w config entry).1, (classifyEntry w config entry).2)).2.path
        = (classifyEntry w config entry).2.path) ∧
    (finalizeEntry w config entry).2.path
      = (if config.relativePaths = true then
          QString.replace
            (daphneOverride config
              ((classifyEntry w config entry).1, (classifyEntry w config entry).2)).2.path
            config.inputFolder ".".toList
        else
          (daphneOverride config
            ((classifyEntry w config entry).1, (classifyEntry w config entry).2)).2.path) ∧
    (∀ rest : QString,
      QString.replace (".zip".toList ++ rest) ".zip".toList ".daphne".toList
        = ".daphne".toList ++ QString.replace rest ".zip".toList ".daphne".toList) ∧
    (∀ stem : QString, (∀ c ∈ stem, c ≠ '.') →
      QString.replace (stem ++ ".zip".toList) ".zip".toList ".daphne".toList
        = stem ++ ".daphne".toList) ∧
    (∀ text : QString, QString.contains text "daphne/roms/".toList = false →
      QString.replace text "daphne/roms/".toList "daphne/".toList = text) := by
  refine ⟨?_, ?_, finalizeEntry_path w config entry, ?_, ?_, ?_⟩
  · intro hdaphne
    have hclass : (classifyEntry w config entry).2 = entry := by
      unfold classifyEntry
      simp only [hdaphne, bne_self_eq_false, Bool.and_false, Bool.false_eq_true, if_false]
      split_ifs <;> rfl
    simp only [daphneOverride, hdaphne, beq_self_eq_true, if_true, hclass]
  · intro hplatform
    rw [daphneOverride_of_ne config _ hplatform]
  · intro rest
    exact replace_leading _ _ rest (by decide)
  · intro stem hstem
    have hrun := replaceGo_copy_run '.' "zip".toList ".daphne".toList stem
      ('.' :: "zip".toList) hstem
    have hocc := replaceGo_occurrence ('.' :: "zip".toList) ".daphne".toList []
      (List.cons_ne_nil _ _)
    rw [List.append_nil] at hocc
    show QString.replaceGo ('.' :: "zip".toList) ".daphne".toList 0
        (stem ++ '.' :: "zip".toList) = stem ++ ".daphne".toList
    rw [hrun, hocc]
    rfl
  · intro text hnone
    exact replace_of_not_contains text _ _ (by decide) hnone

/-- C13, amended, at a frame file: on the platform `daphne` the path
`/roms/daphne/roms/lair.zip` becomes `/roms/daphne/lair.daphne`. -/
theorem daphne_rewrites_every_occurrence_scenario :
    daphneSettings.platform = "daphne".toList ∧
    (daphneOverride daphneSettings
      ((classifyEntry daphneWorld daphneSettings
          (GameEntry.plain "/roms/daphne/roms/lair.zip" "Lair")).1,
       (classifyEntry daphneWorld daphneSettings
          (GameEntry.plain "/roms/daphne/roms/lair.zip" "Lair")).2)).2.path
      = QString.replace
          (QString.replace (GameEntry.plain "/roms/daphne/roms/lair.zip" "Lair").path
            "daphne/roms/".toList "daphne/".toList)
          ".zip".toList ".daphne".toList ∧
    (finalizeEntry daphneWorld daphneSettings
      (GameEntry.plain "/roms/daphne/roms/lair.zip" "Lair")).2.path
      = "/roms/daphne/lair.daphne".toList :=
  ⟨by decide,
   (daphne_rewrites_every_occurrence daphneWorld daphneSettings
      (GameEntry.plain "/roms/daphne/roms/lair.zip" "Lair")).1 (by decide),
   by decide⟩


/-! ## The image line and the escaped text -/

/-- The element around a screenshot path is never the self-closing element. -/
theorem image_element_ne_self_closing (content : QString) :
    "    <image>".toList ++ content ++ "</image>\n".toList ≠ "    <image />\n".toList := by
  intro h
  have h₁ : "    <image>".toList ++ content ++ "</image>\n".toList
      = ' ' :: ' ' :: ' ' :: ' ' :: '<' :: 'i' :: 'm' :: 'a' :: 'g' :: 'e' :: '>'
          :: (content ++ "</image>\n".toList) := rfl
  have h₂ : "    <image />\n".toList
      = ' ' :: ' ' :: ' ' :: ' ' :: '<' :: 'i' :: 'm' :: 'a' :: 'g' :: 'e' :: ' '
          :: "/>\n".toList := rfl
  rw [h₁, h₂] at h
  simp only [List.cons.injEq, true_and] at h
  exact absurd h.1 (by decide)

/-- C14: the element of every entry has its image line between the line of the name
and the closing tag; the line is the self-closing element exactly when the
screenshot path of the entry is empty, and otherwise it is the element around the
escaped screenshot path, with the input folder replaced by `.` in relative-path
mode. -/
theorem image_line_always_present (w : World) (config : Settings)
    (entries : List GameEntry) :
    (assembleList w config [] entries).1
      = "<?xml version=\"1.0\"?>\n<gameList>\n".toList
        ++ (entries.map (fun entry =>
              "  <".toList ++ (finalizeEntry w config entry).1 ++ ">\n".toList
              ++ ("    <path>".toList ++ w.xmlEscape (finalizeEntry w config entry).2.path
                    ++ "</path>\n".toList)
              ++ ("    <name>".toList ++ w.xmlEscape entry.title ++ "</name>\n".toList)
              ++ imageLine w config entry
              ++ ("  </".toList ++ (finalizeEntry w config entry).1 ++ ">\n".toList))).flatten
        ++ "</gameList>".toList ∧
    (∀ entry : GameEntry,
      (imageLine w config entry = "    <image />\n".toList ↔ entry.screenshotFile = []) ∧
      (entry.screenshotFile ≠ [] →
        imageLine w config entry
          = "    <image>".toList
            ++ (if config.relativePaths = true then
                  QString.replace (w.xmlEscape entry.screenshotFile) config.inputFolder
                    ".".toList
                else w.xmlEscape entry.screenshotFile)
            ++ "</image>\n".toList)) := by
  refine ⟨assembleList_text w config entries, ?_⟩
  intro entry
  cases hs : entry.screenshotFile with
  | nil =>
    have hline : imageLine w config entry = "    <image />\n".toList := by
      simp only [imageLine, hs, List.isEmpty_nil, if_true]
    exact ⟨⟨fun _ => rfl, fun _ => hline⟩, fun h => absurd rfl h⟩
  | cons c cs =>
    have hline : imageLine w config entry
        = "    <image>".toList
          ++ (if config.relativePaths = true then
                QString.replace (w.xmlEscape (c :: cs)) config.inputFolder ".".toList
              else w.xmlEscape (c :: cs))
          ++ "</image>\n".toList := by
      simp only [imageLine, hs, List.isEmpty_cons, Bool.false_eq_true, if_false]
    refine ⟨⟨fun h => ?_, fun h => absurd h (List.cons_ne_nil _ _)⟩, fun _ => hline⟩
    rw [hline] at h
    exact absurd h (image_element_ne_self_closing _)

/-- The text of one character under `xmlEscape`: the character itself when it is
not reserved, and an ampersand followed by the rest of an entity when it is. -/
theorem xmlEscapeChar_shape (c : Char) :
    (xmlEscapeChar c = [c] ∧ c ≠ '&' ∧ c ≠ '<' ∧ c ≠ '>' ∧ c ≠ Char.ofNat 34 ∧
      c ≠ Char.ofNat 39) ∨
    ∃ tail ∈ ["amp;".toList, "lt;".toList, "gt;".toList, "quot;".toList, "apos;".toList],
      xmlEscapeChar c = '&' :: tail := by
  unfold xmlEscapeChar
  split_ifs with h₁ h₂ h₃ h₄ h₅
  · exact Or.inr ⟨"amp;".toList, by simp, rfl⟩
  · exact Or.inr ⟨"lt;".toList, by simp, rfl⟩
  · exact Or.inr ⟨"gt;".toList, by simp, rfl⟩
  · exact Or.inr ⟨"quot;".toList, by simp, rfl⟩
  · exact Or.inr ⟨"apos;".toList, by simp, rfl⟩
  · exact Or.inl ⟨rfl, h₁, h₂, h₃, h₄, h₅⟩

/-- The rest of an entity has no reserved character. -/
theorem entity_tail_clean :
    ∀ tail ∈ ["amp;".toList, "lt;".toList, "gt;".toList, "quot;".toList, "apos;".toList],
      ∀ c ∈ tail, c ≠ '&' ∧ c ≠ '<' ∧ c ≠ '>' ∧ c ≠ Char.ofNat 34 ∧ c ≠ Char.ofNat 39 := by
  decide

/-- `xmlEscape` works character by character. -/
theorem xmlEscape_eq_flatten (text : QString) :
    xmlEscape text = (text.map xmlEscapeChar).flatten := by
  induction text with
  | nil => rfl
  | cons c cs ih => simp only [xmlEscape, List.map_cons, List.flatten_cons, ih]

/-- The escaped text has none of the characters `<`, `>`, the double quote and the
apostrophe. -/
theorem xmlEscape_clean (text : QString) :
    ∀ c ∈ xmlEscape text,
      c ≠ '<' ∧ c ≠ '>' ∧ c ≠ Char.ofNat 34 ∧ c ≠ Char.ofNat 39 := by
  induction text with
  | nil =>
    intro c hc
    exact absurd hc (List.not_mem_nil c)
  | cons d ds ih =>
    intro c hc
    simp only [xmlEscape, List.mem_append] at hc
    rcases hc with hc | hc
    · rcases xmlEscapeChar_shape d with ⟨hd, -, h₂, h₃, h₄, h₅⟩ | ⟨tail, htail, hd⟩
      · rw [hd, List.mem_singleton] at hc
        rw [hc]
        exact ⟨h₂, h₃, h₄, h₅⟩
      · rw [hd] at hc
        rcases List.mem_cons.mp hc with rfl | hc
        · decide
        · exact (entity_tail_clean tail htail c hc).2
    · exact ih c hc

/-- A text without an ampersand at the head of a text is passed by an ampersand
found in the whole. -/
theorem append_eq_append_ampersand (piece rest front back : QString)
    (hpiece : ∀ c ∈ piece, c ≠ '&') (h : piece ++ rest = front ++ '&' :: back) :
    ∃ mid, front = piece ++ mid ∧ rest = mid ++ '&' :: back := by
  induction piece generalizing front with
  | nil => exact ⟨front, rfl, h⟩
  | cons e es ih =>
    cases front with
    | nil =>
      simp only [List.cons_append, List.nil_append, List.cons.injEq] at h
      exact absurd h.1 (hpiece e (List.mem_cons_self _ _))
    | cons f fs =>
      simp only [List.cons_append, List.cons.injEq] at h
      obtain ⟨mid, hmid, hrest⟩ := ih fs (fun c hc => hpiece c (List.mem_cons_of_mem _ hc)) h.2
      exact ⟨mid, by rw [h.1, hmid]; rfl, hrest⟩

/-- Every ampersand of the escaped text begins one of the five entities. -/
theorem xmlEscape_ampersand (text front back : QString)
    (h : xmlEscape text = front ++ '&' :: back) :
    ∃ tail ∈ ["amp;".toList, "lt;".toList, "gt;".toList, "quot;".toList, "apos;".toList],
      tail <+: back := by
  induction text generalizing front with
  | nil =>
    have hlen := congrArg List.length h
    simp only [xmlEscape, List.length_nil, List.length_append, List.length_cons] at hlen
    omega
  | cons d ds ih =>
    simp only [xmlEscape] at h
    rcases xmlEscapeChar_shape d with ⟨hd, hamp, -⟩ | ⟨tail, htail, hd⟩
    · rw [hd] at h
      obtain ⟨mid, -, hrest⟩ := append_eq_append_ampersand [d] _ front back
        (fun c hc => by rw [List.mem_singleton.mp hc]; exact hamp) h
      exact ih mid hrest
    · rw [hd] at h
      cases front with
      | nil =>
        simp only [List.cons_append, List.nil_append, List.cons.injEq, true_and] at h
        exact ⟨tail, htail, ⟨_, h⟩⟩
      | cons f fs =>
        simp only [List.cons_append, List.cons.injEq] at h
        obtain ⟨mid, -, hrest⟩ := append_eq_append_ampersand tail _ fs back
          (fun c hc => (entity_tail_clean tail htail c hc).1) h.2
        exact ih mid hrest

/-- C15: when `StrTools::xmlEscape` is the escaping of the specification, the text
inside `<path>` is the escaped final path and the text inside `<name>` the escaped
title of the entry; the escaped text is made character by character, each of the
five reserved characters giving its entity and any other character itself; it has
no `<`, `>`, double quote or apostrophe, and every ampersand in it begins an
entity; and the title `A & B "Test"` gives `A &amp; B &quot;Test&quot;`. -/
theorem element_text_escaped (w : World) (config : Settings) (entries : List GameEntry)
    (hxml : w.xmlEscape = xmlEscape) :
    (assembleList w config [] entries).1
      = "<?xml version=\"1.0\"?>\n<gameList>\n".toList
        ++ (entries.map (fun entry =>
              "  <".toList ++ (finalizeEntry w config entry).1 ++ ">\n".toList
              ++ ("    <path>".toList ++ xmlEscape (finalizeEntry w config entry).2.path
                    ++ "</path>\n".toList)
              ++ ("    <name>".toList ++ xmlEscape entry.title ++ "</name>\n".toList)
              ++ imageLine w config entry
              ++ ("  </".toList ++ (finalizeEntry w config entry).1 ++ ">\n".toList))).flatten
        ++ "</gameList>".toList ∧
    (∀ text : QString, xmlEscape text = (text.map xmlEscapeChar).flatten) ∧
    (xmlEscapeChar '&' = "&amp;".toList ∧ xmlEscapeChar '<' = "&lt;".toList ∧
      xmlEscapeChar '>' = "&gt;".toList ∧ xmlEscapeChar (Char.ofNat 34) = "&quot;".toList ∧
      xmlEscapeChar (Char.ofNat 39) = "&apos;".toList) ∧
    (∀ c : Char, c ≠ '&' → c ≠ '<' → c ≠ '>' → c ≠ Char.ofNat 34 → c ≠ Char.ofNat 39 →
      xmlEscapeChar c = [c]) ∧
    (∀ (text : QString) (c : Char), c ∈ xmlEscape text →
      c ≠ '<' ∧ c ≠ '>' ∧ c ≠ Char.ofNat 34 ∧ c ≠ Char.ofNat 39) ∧
    (∀ text front back : QString, xmlEscape text = front ++ '&' :: back →
      ∃ tail ∈ ["amp;".toList, "lt;".toList, "gt;".toList, "quot;".toList, "apos;".toList],
        tail <+: back) ∧
    xmlEscape "A & B \"Test\"".toList = "A &amp; B &quot;Test&quot;".toList := by
  refine ⟨?_, xmlEscape_eq_flatten, by decide, ?_, xmlEscape_clean, xmlEscape_ampersand,
    by decide⟩
  · rw [assembleList_text w config entries, hxml]
  · intro c h₁ h₂ h₃ h₄ h₅
    simp only [xmlEscapeChar, h₁, h₂, h₃, h₄, h₅, if_false]

/-- C15, on the disk of a scenario, whose world escapes as the specification says:
the entry titled `A & B "Test"` is written with the name
`A &amp; B &quot;Test&quot;`. -/
theorem element_text_escaped_scenario :
    psxWorld.xmlEscape = xmlEscape ∧
    (assembleList psxWorld psxSettings []
      [GameEntry.plain "/roms/psx/Multi/disc1.cue" "A & B \"Test\""]).1
      = ("<?xml version=\"1.0\"?>\n<gameList>\n  <game>\n"
          ++ "    <path>/roms/psx/Multi/disc1.cue</path>\n"
          ++ "    <name>A &amp; B &quot;Test&quot;</name>\n"
          ++ "    <image />\n  </game>\n</gameList>").toList ∧
    (∀ c ∈ xmlEscape "A & B \"Test\"".toList,
      c ≠ '<' ∧ c ≠ '>' ∧ c ≠ Char.ofNat 34 ∧ c ≠ Char.ofNat 39) :=
  ⟨rfl, by decide,
   fun c hc =>
    (element_text_escaped psxWorld psxSettings [] rfl).2.2.2.2.1 "A & B \"Test\"".toList c hc⟩


/-! ## More on `skipExisting` -/

/-- A path that is a directory is not a regular file. -/
theorem QFileInfo.isFile_of_isDir (info : QFileInfo) (h : info.isDir = true) :
    info.isFile = false := by
  unfold QFileInfo.isDir at h
  unfold QFileInfo.isFile
  cases hk : info.kind <;> simp_all

/-- C16, as the specification states it, fails: the old entry `/roms/psx/FF7`, a
directory, against the queue of that directory and of the file `FF7.cue` inside it
leaves the candidate whose own path is the path of the old entry and removes the
file inside the directory. -/
theorem directory_entry_removes_file_inside :
    (psxWorld.fileInfo (GameEntry.plain "/roms/psx/FF7" "FF7").path).isDir = true ∧
    (psxDisk.candidate "/roms/psx/FF7").absoluteFilePath
      = (psxWorld.fileInfo (GameEntry.plain "/roms/psx/FF7" "FF7").path).absoluteFilePath ∧
    (psxDisk.candidate "/roms/psx/FF7/FF7.cue").absoluteFilePath
      ≠ (psxWorld.fileInfo (GameEntry.plain "/roms/psx/FF7" "FF7").path).absoluteFilePath ∧
    (skipExisting psxWorld [GameEntry.plain "/roms/psx/FF7" "FF7"] []
      [psxDisk.candidate "/roms/psx/FF7", psxDisk.candidate "/roms/psx/FF7/FF7.cue"]).queue
      = [psxDisk.candidate "/roms/psx/FF7"] := by
  decide

/-- C16, amended: with a single old entry whose path is a directory, either no
candidate has that directory as its `absolutePath()`, the directory the candidate
lies in, and the queue is left as it was, or the queue loses exactly the first
candidate that lies in that directory; a candidate that lies elsewhere is never
removed. -/
theorem skipExisting_single_dir (w : World) (old : GameEntry)
    (gameEntries : List GameEntry) (queue : Queue)
    (hdir : (w.fileInfo old.path).isDir = true) :
    ((∀ cand ∈ queue, cand.absolutePath ≠ (w.fileInfo old.path).absoluteFilePath) ∧
        (skipExisting w [old] gameEntries queue).queue = queue) ∨
      ∃ front cand back, queue = front ++ cand :: back ∧
        cand.absolutePath = (w.fileInfo old.path).absoluteFilePath ∧
        (∀ c ∈ front, c.absolutePath ≠ (w.fileInfo old.path).absoluteFilePath) ∧
        (skipExisting w [old] gameEntries queue).queue = front ++ back := by
  have hfile := QFileInfo.isFile_of_isDir _ hdir
  have hmatch : ∀ cand : QFileInfo,
      matchesCandidate (w.fileInfo old.path) cand = true
        ↔ cand.absolutePath = (w.fileInfo old.path).absoluteFilePath := by
    intro cand
    simp only [matchesCandidate, hfile, hdir, Bool.false_eq_true, if_false, if_true,
      beq_iff_eq]
    exact eq_comm
  have hqueue : (skipExisting w [old] gameEntries queue).queue
      = queue.eraseP (matchesCandidate (w.fileInfo old.path)) :=
    scanQueue_eq_eraseP _ queue
  rw [hqueue]
  rcases List.exists_or_eq_self_of_eraseP (matchesCandidate (w.fileInfo old.path)) queue with
    hself | ⟨cand, front, back, hfront, hcand, hsplit, herase⟩
  · left
    refine ⟨fun cand hmem habs => ?_, hself⟩
    exact (List.eraseP_eq_self_iff.mp hself) cand hmem ((hmatch cand).mpr habs)
  · right
    exact ⟨front, cand, back, hsplit, (hmatch cand).mp hcand,
      fun c hc habs => hfront c hc ((hmatch c).mpr habs), herase⟩

/-- C16, amended, on the disk of the scenario: the old entry `/roms/psx/FF7` is a
directory, and of the queue of that directory and of `FF7.cue` the file, which lies
in it, is the candidate removed. -/
theorem skipExisting_single_dir_scenario :
    (psxWorld.fileInfo (GameEntry.plain "/roms/psx/FF7" "FF7").path).isDir = true ∧
    (psxDisk.candidate "/roms/psx/FF7/FF7.cue").absolutePath
      = (psxWorld.fileInfo (GameEntry.plain "/roms/psx/FF7" "FF7").path).absoluteFilePath ∧
    (((∀ cand ∈ [psxDisk.candidate "/roms/psx/FF7", psxDisk.candidate "/roms/psx/FF7/FF7.cue"],
          cand.absolutePath
            ≠ (psxWorld.fileInfo (GameEntry.plain "/roms/psx/FF7" "FF7").path).absoluteFilePath) ∧
        (skipExisting psxWorld [GameEntry.plain "/roms/psx/FF7" "FF7"] []
          [psxDisk.candidate "/roms/psx/FF7",
           psxDisk.candidate "/roms/psx/FF7/FF7.cue"]).queue
          = [psxDisk.candidate "/roms/psx/FF7", psxDisk.candidate "/roms/psx/FF7/FF7.cue"]) ∨
      ∃ front cand back,
        [psxDisk.candidate "/roms/psx/FF7", psxDisk.candidate "/roms/psx/FF7/FF7.cue"]
          = front ++ cand :: back ∧
        cand.absolutePath
          = (psxWorld.fileInfo (GameEntry.plain "/roms/psx/FF7" "FF7").path).absoluteFilePath ∧
        (∀ c ∈ front, c.absolutePath
          ≠ (psxWorld.fileInfo (GameEntry.plain "/roms/psx/FF7" "FF7").path).absoluteFilePath) ∧
        (skipExisting psxWorld [GameEntry.plain "/roms/psx/FF7" "FF7"] []
          [psxDisk.candidate "/roms/psx/FF7",
           psxDisk.candidate "/roms/psx/FF7/FF7.cue"]).queue = front ++ back) :=
  ⟨by decide, by decide,
   skipExisting_single_dir psxWorld (GameEntry.plain "/roms/psx/FF7" "FF7") []
     [psxDisk.candidate "/roms/psx/FF7", psxDisk.candidate "/roms/psx/FF7/FF7.cue"]
     (by decide)⟩

/-- Among candidates with different file names at most one has a given name. -/
theorem countP_fileName_le_one (name : QString) (queue : Queue)
    (hdistinct : queue.Pairwise (fun a b => a.fileName ≠ b.fileName)) :
    queue.countP (fun cand => name == cand.fileName) ≤ 1 := by
  induction queue with
  | nil => simp
  | cons cand rest ih =>
    rw [List.pairwise_cons] at hdistinct
    by_cases hc : (name == cand.fileName) = true
    · rw [List.countP_cons]
      simp only [hc, if_true]
      have hzero : rest.countP (fun c => name == c.fileName) = 0 := by
        rw [List.countP_eq_zero]
        intro c hmem hname
        have h₁ : name = cand.fileName := by simpa using hc
        have h₂ : name = c.fileName := by simpa using hname
        exact hdistinct.1 c hmem (h₁.symm.trans h₂)
      omega
    · rw [List.countP_cons]
      simp only [hc, if_false, Nat.add_zero]
      exact ih hdistinct.2

/-- The outer loop leaves no candidate for an entry that claimed at most one
candidate of the queue. -/
theorem resolveLoop_no_match_of_unique (w : World) (entries : List GameEntry) (queue : Queue)
    (entry : GameEntry) (hentry : entry ∈ entries)
    (h : ∀ sub : Queue, List.Sublist sub queue →
      sub.countP (matchesCandidate (w.fileInfo entry.path)) ≤ 1) :
    ∀ cand ∈ resolveLoop w entries queue,
      matchesCandidate (w.fileInfo entry.path) cand = false := by
  induction entries generalizing queue with
  | nil => exact absurd hentry (List.not_mem_nil _)
  | cons e rest ih =>
    intro cand hcand
    simp only [resolveLoop] at hcand
    by_cases hmem : entry ∈ rest
    · exact ih (scanQueue (w.fileInfo e.path) queue) hmem
        (fun sub hsub => h sub (hsub.trans (scanQueue_sublist _ queue))) cand hcand
    · have he : entry = e := by
        rcases List.mem_cons.mp hentry with he | he
        · exact he
        · exact absurd he hmem
      subst he
      have hsub := (resolveLoop_sublist w rest (scanQueue (w.fileInfo entry.path) queue)).subset
      have hin := hsub hcand
      rw [scanQueue_eq_eraseP] at hin
      exact eraseP_no_match_of_countP_le_one _ queue (h queue (List.Sublist.refl _)) cand hin

/-- C17: when the file names of the candidates of the queue are pairwise different,
no candidate that `skipExisting` leaves in the queue has the file name of an old
entry whose path is a regular file. -/
theorem skipExisting_leaves_no_known_file (w : World) (oldEntries gameEntries : List GameEntry)
    (queue : Queue)
    (hdistinct : queue.Pairwise (fun a b => a.fileName ≠ b.fileName)) :
    ∀ old ∈ oldEntries, (w.fileInfo old.path).isFile = true →
      ∀ cand ∈ (skipExisting w oldEntries gameEntries queue).queue,
        cand.fileName ≠ (w.fileInfo old.path).fileName := by
  intro old hold hfile cand hcand hname
  have hmatch : ∀ c : QFileInfo, matchesCandidate (w.fileInfo old.path) c
      = ((w.fileInfo old.path).fileName == c.fileName) := by
    intro c
    simp only [matchesCandidate, hfile, if_true]
  have hfun : matchesCandidate (w.fileInfo old.path)
      = fun c => (w.fileInfo old.path).fileName == c.fileName := funext hmatch
  have hnone := resolveLoop_no_match_of_unique w oldEntries queue old hold
    (fun sub hsub => by
      rw [hfun]
      exact countP_fileName_le_one _ sub (hdistinct.sublist hsub))
    cand hcand
  rw [hmatch cand, hname] at hnone
  simp at hnone

/-- C17, at the scenario of the specification: the queue of `Mario.nes` and
`Zelda.nes` has two different file names, and after `skipExisting` with the old
entry of `Mario.nes` no candidate named `Mario.nes` is left. -/
theorem skipExisting_leaves_no_known_file_scenario :
    List.Pairwise (fun a b : QFileInfo => a.fileName ≠ b.fileName)
      [nesDisk.candidate "/roms/nes/Mario.nes", nesDisk.candidate "/roms/nes/Zelda.nes"] ∧
    (nesWorld.fileInfo marioEntry.path).isFile = true ∧
    (skipExisting nesWorld [marioEntry] []
      [nesDisk.candidate "/roms/nes/Mario.nes",
       nesDisk.candidate "/roms/nes/Zelda.nes"]).queue
      = [nesDisk.candidate "/roms/nes/Zelda.nes"] ∧
    (∀ cand ∈ (skipExisting nesWorld [marioEntry] []
        [nesDisk.candidate "/roms/nes/Mario.nes",
         nesDisk.candidate "/roms/nes/Zelda.nes"]).queue,
      cand.fileName ≠ (nesWorld.fileInfo marioEntry.path).fileName) :=
  ⟨by decide, by decide, by decide,
   skipExisting_leaves_no_known_file nesWorld [marioEntry] []
     [nesDisk.candidate "/roms/nes/Mario.nes", nesDisk.candidate "/roms/nes/Zelda.nes"]
     (by decide) marioEntry (List.mem_singleton.mpr rfl) (by decide)⟩


/-! ## Where the code and the specification part -/

/-- C18, the code at an input folder written with a trailing `/`: the disc image
`/roms/psx/Collection/FF7/FF7.cue` lies in a directory two levels below the input
folder `/roms/psx/`, whose parent is `/roms/psx/Collection`; that directory has one
`/` more than the text of the input folder, and the entry is written as `folder`
with the path of the directory.  With the input folder written `/roms/psx` the same
entry stays `game`, and the entry of a disc image in a direct subdirectory, which is
promoted then, stays `game` under `/roms/psx/`. -/
theorem promotion_two_levels_below :
    psxSlashSettings.inputFolder = "/roms/psx/".toList ∧
    (nestedWorld.fileInfo "/roms/psx/Collection/FF7/FF7.cue".toList).isFile = true ∧
    (nestedWorld.fileInfo "/roms/psx/Collection/FF7/FF7.cue".toList).absolutePath
      = "/roms/psx/Collection/FF7".toList ∧
    dirName "/roms/psx/Collection/FF7".toList = "/roms/psx/Collection".toList ∧
    QString.count "/roms/psx/Collection/FF7".toList "/".toList
      = QString.count psxSlashSettings.inputFolder "/".toList + 1 ∧
    finalizeEntry nestedWorld psxSlashSettings
        (GameEntry.plain "/roms/psx/Collection/FF7/FF7.cue" "FF7")
      = ("folder".toList, GameEntry.plain "/roms/psx/Collection/FF7" "FF7") ∧
    finalizeEntry nestedWorld psxSettings
        (GameEntry.plain "/roms/psx/Collection/FF7/FF7.cue" "FF7")
      = ("game".toList, GameEntry.plain "/roms/psx/Collection/FF7/FF7.cue" "FF7") ∧
    finalizeEntry psxWorld psxSettings (GameEntry.plain "/roms/psx/FF7/FF7.cue" "FF7")
      = ("folder".toList, GameEntry.plain "/roms/psx/FF7" "FF7") ∧
    finalizeEntry psxWorld psxSlashSettings (GameEntry.plain "/roms/psx/FF7/FF7.cue" "FF7")
      = ("game".toList, GameEntry.plain "/roms/psx/FF7/FF7.cue" "FF7") := by
  decide

/-- C19, the code at an input folder with an ampersand: in relative-path mode with
input folder `/roms/R&D` the path `/roms/R&D/Mario.zip` is written `./Mario.zip`,
the input folder being replaced before the text is escaped, while the screenshot
path `/roms/R&D/Imgs/Mario.png`, escaped first, no longer contains the input folder
and is written whole; replaced first and escaped afterwards it would be
`./Imgs/Mario.png`. -/
theorem image_escaped_before_relative :
    labSettings.relativePaths = true ∧ labWorld.xmlEscape = xmlEscape ∧
    labWorld.xmlEscape (finalizeEntry labWorld labSettings labEntry).2.path
      = "./Mario.zip".toList ∧
    imageLine labWorld labSettings labEntry
      = "    <image>/roms/R&amp;D/Imgs/Mario.png</image>\n".toList ∧
    labWorld.xmlEscape
        (QString.replace labEntry.screenshotFile labSettings.inputFolder ".".toList)
      = "./Imgs/Mario.png".toList ∧
    (assembleList labWorld labSettings [] [labEntry]).1
      = ("<?xml version=\"1.0\"?>\n<gameList>\n  <game>\n    <path>./Mario.zip</path>\n"
          ++ "    <name>Mario</name>\n"
          ++ "    <image>/roms/R&amp;D/Imgs/Mario.png</image>\n  </game>\n</gameList>").toList :=
  ⟨by decide, rfl, by decide, by decide, by decide, by decide⟩

/-- C20, as the specification states it, fails: the old entry of
`/roms/nes/Mario.nes` is loaded with the favourite flag `true`, the entry to be
assembled has the same path and an empty flag, and the flag is empty after
`preserveFromOld` and after `assembleList`. -/
theorem preserveFromOld_keeps_empty_flag :
    (skipExisting nesWorld [favouriteOld] [] []).gameEntries = [favouriteOld] ∧
    favouriteOld.path = marioEntry.path ∧
    favouriteOld.eSFavorite = "true".toList ∧
    marioEntry.eSFavorite = [] ∧
    (preserveFromOld marioEntry).eSFavorite = [] ∧
    (assembleList nesWorld nesSettings [] [marioEntry]).2 = [marioEntry] := by
  decide

/-- C20, amended: `preserveFromOld` hands back the entry it was given, so that an
empty favourite flag stays empty and a flag that is not empty stays as it is; and
the entries `assembleList` leaves have the favourite flags they came with. -/
theorem preserveFromOld_changes_nothing (w : World) (config : Settings)
    (entries : List GameEntry) :
    (∀ entry : GameEntry, preserveFromOld entry = entry) ∧
    (assembleList w config [] entries).2.map (fun entry => entry.eSFavorite)
      = entries.map (fun entry => entry.eSFavorite) := by
  refine ⟨preserveFromOld_eq, ?_⟩
  simp only [assembleList, assembleLoop_eq, List.map_map]
  apply List.map_congr_left
  intro entry _
  exact (finalizeEntry_fields w config entry).2.2

/-- C20, amended, at a flag that is not empty: the entry marked `true` keeps its
flag through `preserveFromOld` and through `assembleList`. -/
theorem preserveFromOld_changes_nothing_scenario :
    (preserveFromOld favouriteOld).eSFavorite = "true".toList ∧
    (assembleList nesWorld nesSettings [] [favouriteOld, marioEntry]).2.map
        (fun entry => entry.eSFavorite)
      = [favouriteOld, marioEntry].map (fun entry => entry.eSFavorite) :=
  ⟨by decide, (preserveFromOld_changes_nothing nesWorld nesSettings [favouriteOld, marioEntry]).2⟩

end Miyoo
